import Mathlib

/-
Verification of modules2tuple (modules2tuple.go) against its specification.

The whole program is embedded shallowly: strings are lists of characters
(Go compares and slices strings byte-wise; all inputs of interest are ASCII,
and UTF-8 byte order coincides with code-point order), and each anchored
RE2 regular expression of the source is translated into a deterministic
matcher.  Each matcher carries a comment arguing why the greedy
leftmost-first semantics of Go's regexp package is deterministic for that
particular pattern, so the function is extensionally the regex.
-/

namespace Modules2Tuple

abbrev Str := List Char

deriving instance DecidableEq for Except

/-- The Package struct of the source: full name, Github account, Github
project, and tag or commit id. -/
structure Package where
  Name : Str
  Account : Str
  Project : Str
  Tag : Str
deriving DecidableEq, Repr

/-- The WellKnown struct of the source (a Github account/project pair). -/
structure WellKnown where
  Account : Str
  Project : Str
deriving DecidableEq, Repr

/- Character classes appearing in the source's regular expressions.
All of them are ASCII-only, exactly as RE2 character classes are. -/

/-- The class [0-9a-f] of tagRx. -/
def isHexLower (c : Char) : Bool := c.isDigit || ('a' ≤ c && c ≤ 'f')

/-- The class [0-9A-Za-z.-] of versionRx's prerelease part. -/
def isPreChar (c : Char) : Bool := c.isAlphanum || c = '.' || c = '-'

/-- The class \w = [0-9A-Za-z_] of groupRe. -/
def wordChar (c : Char) : Bool := c.isAlphanum || c = '_'

/-- The class [-0-9A-Za-z] of gopkgInRx and golangOrgRx. -/
def gopkgClass (c : Char) : Bool := c.isAlphanum || c = '-'

/-- unicode.IsSpace, used by strings.Fields. -/
def isGoSpace (c : Char) : Bool :=
  c = '\t' || c = '\n' || c = '\u000B' || c = '\u000C' || c = '\r' || c = ' ' ||
  c = '\u0085' || c = '\u00A0' || c = '\u1680' ||
  ('\u2000' ≤ c && c ≤ '\u200A') || c = '\u2028' || c = '\u2029' ||
  c = '\u202F' || c = '\u205F' || c = '\u3000'

/-- strings.TrimPrefix combined with strings.HasPrefix: strips the literal
word p from the front of s, or fails. -/
def stripPre : Str → Str → Option Str
  | [], s => some s
  | _ :: _, [] => none
  | p :: ps, c :: t => if c = p then stripPre ps t else none

/-- strings.HasPrefix. -/
def hasPre (p s : Str) : Bool := (stripPre p s).isSome

/-- Go's %q verb on a string, as used in the fmt.Errorf calls of the source
(escaping of non-printable characters is not modelled; every string the
program quotes in the claims is printable ASCII, where %q only adds the
surrounding double quotes). -/
def goQuote (s : Str) : Str := '"' :: (s ++ ['"'])

/-- strings.Fields: the maximal runs of non-space characters, in order.
cur is the reversed current run. -/
def fieldsAcc : Str → Str → List Str
  | cur, [] => if cur.isEmpty then [] else [cur.reverse]
  | cur, c :: t =>
    if isGoSpace c then
      if cur.isEmpty then fieldsAcc [] t else cur.reverse :: fieldsAcc [] t
    else fieldsAcc (c :: cur) t

/-- strings.Fields. -/
def fields (s : Str) : List Str := fieldsAcc [] s

/- The replace-operator " => " of ParsePackage.  strings.Contains and
strings.Split are specialised to this fixed four-character separator. -/

/-- strings.Contains(s, " => "). -/
def hasSep : Str → Bool
  | ' ' :: '=' :: '>' :: ' ' :: _ => true
  | _ :: t => hasSep t
  | [] => false

/-- strings.Split(s, " => "): split at each non-overlapping leftmost
occurrence of the separator. -/
def splitSep : Str → List Str
  | ' ' :: '=' :: '>' :: ' ' :: rest => [] :: splitSep rest
  | c :: t =>
    match splitSep t with
    | [] => [[]]
    | h :: r => (c :: h) :: r
  | [] => [[]]

/-- One mandatory character run: the maximal run of characters satisfying p,
which must be non-empty; returns the run and the remainder.  This is what a
greedy p+ does inside the source's anchored regexes: in every use below the
token after the run can never accept a character of the class, so the greedy
maximal run is the only possible match. -/
def reqRun (p : Char → Bool) (s : Str) : Option (Str × Str) :=
  if (s.takeWhile p).isEmpty then none else some (s.takeWhile p, s.dropWhile p)

/-- One mandatory literal character. -/
def reqChar (c : Char) : Str → Option Str
  | x :: t => if x = c then some t else none
  | [] => none

/-- The optional group (?:\d+\.)? of tagRx.  The group participates exactly
when the maximal digit run is non-empty and is followed by a dot: a shorter
digit run would leave a digit where the literal dot is required, and if the
group is skipped although a dot follows the run, the subsequent \d{14}-
cannot match (it would need a hyphen right after at most the same digits).
So the regex is deterministic here. -/
def optNumDot (s : Str) : Str :=
  match s.dropWhile Char.isDigit with
  | '.' :: t => if (s.takeWhile Char.isDigit).isEmpty then s else t
  | _ => s

/-- tagRx = \Av\d+\.\d+\.\d+-(?:\d+\.)?\d{14}-([0-9a-f]{7})[0-9a-f]+\z,
returning the first capture group on a match.  After the second hyphen the
whole remainder must consist of lowercase hex characters and have length at
least 8 (7 captured plus at least one more); the capture is the first 7. -/
def tagRxMatch (s : Str) : Option Str :=
  match reqChar 'v' s with
  | none => none
  | some s1 =>
  match reqRun Char.isDigit s1 with
  | none => none
  | some (_, s2) =>
  match reqChar '.' s2 with
  | none => none
  | some s3 =>
  match reqRun Char.isDigit s3 with
  | none => none
  | some (_, s4) =>
  match reqChar '.' s4 with
  | none => none
  | some s5 =>
  match reqRun Char.isDigit s5 with
  | none => none
  | some (_, s6) =>
  match reqChar '-' s6 with
  | none => none
  | some s7 =>
  if ((optNumDot s7).take 14).length = 14 && ((optNumDot s7).take 14).all Char.isDigit then
    match (optNumDot s7).drop 14 with
    | '-' :: hex =>
      if 8 ≤ hex.length && hex.all isHexLower then some (hex.take 7) else none
    | _ => none
  else none

/-- versionRx =
\A(v\d+\.\d+\.\d+(?:-[0-9A-Za-z]+[0-9A-Za-z.-]+)?)(?:\+incompatible)?\z,
returning the first capture group on a match.  The prerelease group
[0-9A-Za-z]+[0-9A-Za-z.-]+ accepts exactly the strings whose first character
is alphanumeric and which consist of at least two characters of the larger
class; greedily it consumes the maximal run of class characters, after which
only the literal +incompatible or the end of the string may follow ('+' is
not in the class, so the maximal run is the only possible split). -/
def versionRxMatch (s : Str) : Option Str :=
  match reqChar 'v' s with
  | none => none
  | some s1 =>
  match reqRun Char.isDigit s1 with
  | none => none
  | some (d1, s2) =>
  match reqChar '.' s2 with
  | none => none
  | some s3 =>
  match reqRun Char.isDigit s3 with
  | none => none
  | some (d2, s4) =>
  match reqChar '.' s4 with
  | none => none
  | some s5 =>
  match reqRun Char.isDigit s5 with
  | none => none
  | some (d3, s6) =>
  match s6 with
  | [] => some ('v' :: (d1 ++ '.' :: (d2 ++ '.' :: d3)))
  | '+' :: t =>
    if t = "incompatible".data then some ('v' :: (d1 ++ '.' :: (d2 ++ '.' :: d3))) else none
  | '-' :: t =>
    match t with
    | [] => none
    | c :: _ =>
      if c.isAlphanum then
        if 2 ≤ (t.takeWhile isPreChar).length &&
            (t.dropWhile isPreChar = [] || t.dropWhile isPreChar = '+' :: "incompatible".data) then
          some (('v' :: (d1 ++ '.' :: (d2 ++ '.' :: d3))) ++ '-' :: t.takeWhile isPreChar)
        else none
      else none
  | _ => none

/-- The version switch of ParsePackage: tagRx is tried first, then
versionRx; the matched tag is returned. -/
def parseVersion (v : Str) : Option Str :=
  match tagRxMatch v with
  | some t => some t
  | none => versionRxMatch v

/-- gopkgInRx =
\Agopkg\.in/([0-9A-Za-z][-0-9A-Za-z]+)(?:\.v.+)?(?:/([0-9A-Za-z][-0-9A-Za-z]+)(?:\.v.+))?\z.
Returns the two capture groups (the second is [] when the group does not
participate, matching Go's empty submatch string).

Determinism of the leftmost-first match: each capture group must take the
maximal class run (a shorter run leaves a class character where only '.',
'/', or the end may appear).  In .v.+ the dot-any of RE2 accepts every
character except a newline, so a greedy .+ runs to the end of the string
(or up to a newline, where every continuation fails, because no token of
the pattern accepts a newline); hence whenever ".v" plus at least one
further character follows the first group, the whole rest of the string is
swallowed there, the second optional group is empty, and the match
succeeds, provided no newline occurs.  Only when the first group is
followed directly by '/' is the second group tried. -/
def gopkgInMatch (name : Str) : Option (Str × Str) :=
  match stripPre "gopkg.in/".data name with
  | none => none
  | some s =>
    match s with
    | [] => none
    | c :: t =>
      if c.isAlphanum then
        if (t.takeWhile gopkgClass).isEmpty then none else
        match t.dropWhile gopkgClass with
        | [] => some (c :: t.takeWhile gopkgClass, [])
        | '.' :: more =>
          match more with
          | 'v' :: mm =>
            if (!mm.isEmpty && mm.all (fun x => x != '\n')) then
              some (c :: t.takeWhile gopkgClass, [])
            else none
          | _ => none
        | '/' :: rest3 =>
          match rest3 with
          | [] => none
          | c2 :: t2 =>
            if c2.isAlphanum then
              if (t2.takeWhile gopkgClass).isEmpty then none else
              match t2.dropWhile gopkgClass with
              | '.' :: more2 =>
                match more2 with
                | 'v' :: mm2 =>
                  if (!mm2.isEmpty && mm2.all (fun x => x != '\n')) then
                    some (c :: t.takeWhile gopkgClass, c2 :: t2.takeWhile gopkgClass)
                  else none
                | _ => none
              | _ => none
            else none
        | _ => none
      else none

/-- parseGopkgInPackage of the source: on a match, an empty second group
gives account "go-"+pkg and project pkg, otherwise account user and
project pkg; no match gives two empty strings. -/
def parseGopkgInPackage (name : Str) : Str × Str :=
  match gopkgInMatch name with
  | none => ([], [])
  | some (g1, g2) =>
    if g2.isEmpty then ("go-".data ++ g1, g1) else (g1, g2)

/-- golangOrgRx = \Agolang\.org/x/([0-9A-Za-z][-0-9A-Za-z]+)\z, returning
the capture group.  After the literal prefix the whole remainder must be
the capture: one alphanumeric character followed by at least one character
of [-0-9A-Za-z], up to the end of the string. -/
def golangOrgMatch (name : Str) : Option Str :=
  match stripPre "golang.org/x/".data name with
  | none => none
  | some s =>
    match s with
    | [] => none
    | c :: t =>
      if (c.isAlphanum && !t.isEmpty && t.all gopkgClass) then some (c :: t)
      else none

/-- parseGolangOrgPackage of the source. -/
def parseGolangOrgPackage (name : Str) : Str × Str :=
  match golangOrgMatch name with
  | none => ([], [])
  | some pkg => ("golang".data, pkg)

/-- The wellKnownPackages map of the source (a Go map with distinct keys;
embedded as the association list of its entries). -/
def wellKnownPackages : List (Str × WellKnown) :=
  [("cloud.google.com/go".data, ⟨"googleapis".data, "google-cloud-go".data⟩),
   ("contrib.go.opencensus.io/exporter/ocagent".data, ⟨"census-ecosystem".data, "opencensus-go-exporter-ocagent".data⟩),
   ("docker.io/go-docker".data, ⟨"docker".data, "go-docker".data⟩),
   ("git.apache.org/thrift.git".data, ⟨"apache".data, "thrift".data⟩),
   ("go.opencensus.io".data, ⟨"census-instrumentation".data, "opencensus-go".data⟩),
   ("go.uber.org/atomic".data, ⟨"uber-go".data, "atomic".data⟩),
   ("google.golang.org/api".data, ⟨"googleapis".data, "google-api-go-client".data⟩),
   ("google.golang.org/appengine".data, ⟨"golang".data, "appengine".data⟩),
   ("google.golang.org/genproto".data, ⟨"google".data, "go-genproto".data⟩),
   ("google.golang.org/grpc".data, ⟨"grpc".data, "grpc-go".data⟩),
   ("gopkg.in/fsnotify.v1".data, ⟨"fsnotify".data, "fsnotify".data⟩)]

/-- Go map lookup wellKnownPackages[name]. -/
def lookupWellKnown (name : Str) : Option WellKnown :=
  (wellKnownPackages.find? (fun kv => kv.1 == name)).map (fun kv => kv.2)

/-- strings.Split(name, "/"). -/
def splitSlash : Str → List Str
  | [] => [[]]
  | c :: t =>
    if c = '/' then [] :: splitSlash t
    else
      match splitSlash t with
      | [] => [[]]
      | h :: r => (c :: h) :: r

/-- The name-resolution block of ParsePackage (lines 71-88 of the source):
well-known table first, then the github.com / gopkg.in / golang.org prefix
rules; any other name leaves account and project empty. -/
def resolveName (name : Str) : Except Str (Str × Str) :=
  match lookupWellKnown name with
  | some wk => .ok (wk.Account, wk.Project)
  | none =>
    if hasPre "github.com".data name then
      if (splitSlash name).length < 3 then
        .error ("unexpected Github package name: ".data ++ goQuote name)
      else .ok ((splitSlash name).getD 1 [], (splitSlash name).getD 2 [])
    else if hasPre "gopkg.in".data name then .ok (parseGopkgInPackage name)
    else if hasPre "golang.org".data name then .ok (parseGolangOrgPackage name)
    else .ok ([], [])

/-- The regular (non-replace) branch of ParsePackage: exactly two
whitespace-separated fields, name resolution, then the version switch. -/
def parsePlainSpec (spec : Str) : Except Str Package :=
  match fields spec with
  | [name, version] =>
    (match resolveName name with
     | .error e => .error e
     | .ok ap =>
       match parseVersion version with
       | some tag => .ok ⟨name, ap.1, ap.2, tag⟩
       | none => .error ("unexpected version string: ".data ++ goQuote version))
  | _ => .error ("unexpected number of fileds: ".data ++ goQuote spec)

/-- ParsePackage.  In the source the two halves of a replace spec are
parsed by recursive calls; a part produced by strings.Split never contains
the separator again, so those recursive calls always take the plain branch
(lemma splitSep_no_sep below), and the recursion is unfolded here. -/
def ParsePackage (spec : Str) : Except Str Package :=
  if hasSep spec then
    match splitSep spec with
    | [oldSpec, newSpec] =>
      (match parsePlainSpec oldSpec with
       | .error e => .error e
       | .ok pOld =>
         match parsePlainSpec newSpec with
         | .error e => .error e
         | .ok p => .ok { p with Name := pOld.Name })
    | _ => .error ("unexpected number of packages in replace spec: ".data ++ goQuote spec)
  else parsePlainSpec spec

/-- The Parsed method: account and project both non-empty. -/
def Parsed (p : Package) : Bool := !p.Account.isEmpty && !p.Project.isEmpty

/-- groupRe.ReplaceAllString(g, "_"): every maximal run of characters
outside \w is replaced by a single underscore (RE2 replaces the
leftmost-longest non-overlapping matches of [^\w]+, which are exactly the
maximal runs). -/
def collapseNonWord : Str → Str
  | [] => []
  | c :: t =>
    if wordChar c then c :: collapseNonWord t
    else '_' :: collapseNonWord (t.dropWhile (fun x => !wordChar x))
termination_by s => s.length
decreasing_by
  all_goals simp only [List.length_cons]
  · omega
  · exact Nat.lt_succ_of_le ((List.dropWhile_sublist _).length_le)

/-- The Group method: account ++ "_" ++ project, non-word runs collapsed,
lowercased (strings.ToLower; ASCII case mapping, all inputs considered are
ASCII). -/
def Group (p : Package) : Str :=
  (collapseNonWord (p.Account ++ '_' :: p.Project)).map Char.toLower

/-- The String method: account:project:tag:group/pre/name with pre the
configured package prefix. -/
def renderPackage (pre : Str) (p : Package) : Str :=
  p.Account ++ ':' :: (p.Project ++ ':' :: (p.Tag ++ ':' ::
    (Group p ++ '/' :: (pre ++ '/' :: p.Name))))

/-- Go's byte-wise < on strings (code-point order equals UTF-8 byte
order). -/
def lexLt : Str → Str → Bool
  | [], [] => false
  | [], _ :: _ => true
  | _ :: _, [] => false
  | a :: s, b :: t => if a = b then lexLt s t else decide (a < b)

/-- The Less order of PackagesByAccountAndProject, as a non-strict
relation: p precedes q when q's rendered string is not below p's. -/
def pkgLe (pre : Str) (p q : Package) : Prop :=
  lexLt (renderPackage pre q) (renderPackage pre p) = false

instance (pre : Str) : DecidableRel (pkgLe pre) := fun p q => by
  unfold pkgLe; infer_instance

/-- sort.Sort(PackagesByAccountAndProject(...)): some permutation that is
non-decreasing in the Less order (sort.Sort is an unstable comparison sort;
insertion sort realises its contract deterministically). -/
def sortPackages (pre : Str) (ps : List Package) : List Package :=
  List.insertionSort (pkgLe pre) ps

/-- The scan loop of main: every line carrying the "# " marker is parsed,
parsed packages go to the first list and unresolved ones to the second,
both in encounter order; the first parse error aborts. -/
def collectPackages : List Str → Except Str (List Package × List Package)
  | [] => .ok ([], [])
  | line :: rest =>
    match stripPre "# ".data line with
    | none => collectPackages rest
    | some spec =>
      match ParsePackage spec with
      | .error e => .error e
      | .ok p =>
        match collectPackages rest with
        | .error e => .error e
        | .ok (ps, us) =>
          .ok (if Parsed p then (p :: ps, us) else (ps, p :: us))

/-- The lines selected by the scan loop, with the "# " marker stripped. -/
def scanSpecs (lines : List Str) : List Str :=
  lines.filterMap (stripPre "# ".data)

/-- Parsing every selected spec in order, stopping at the first error. -/
def parseAll : List Str → Except Str (List Package)
  | [] => .ok []
  | l :: ls =>
    match ParsePackage l with
    | .error e => .error e
    | .ok p =>
      match parseAll ls with
      | .error e => .error e
      | .ok ps => .ok (p :: ps)

/-- The GH_TUPLE entry lines of main's output loop: tab-tab entry with a
trailing " \" continuation on every line but the last. -/
def tupleLines (pre : Str) : List Package → List Str
  | [] => []
  | [p] => ['\t' :: '\t' :: renderPackage pre p]
  | p :: q :: rest =>
    ('\t' :: '\t' :: (renderPackage pre p ++ " \\".data)) :: tupleLines pre (q :: rest)

/-- A trailing comment line of main's output: "#\t\t" plus the rendered
package. -/
def commentLine (pre : Str) (p : Package) : Str :=
  "#\t\t".data ++ renderPackage pre p

/-- The lines written by main: the GH_TUPLE header, the sorted entries of
the parsed packages, then a comment line per unresolved package in
encounter order. -/
def outputLines (pre : Str) (ps us : List Package) : List Str :=
  "GH_TUPLE=\t\\".data :: (tupleLines pre (sortPackages pre ps) ++ us.map (commentLine pre))

/- Shape descriptors used to state the claims: they name the decompositions
the claims quantify over. -/

/-- The optional "<N>." group of a pseudo-version. -/
def optPart : Option Str → Str
  | none => []
  | some n => n ++ ['.']

/-- A pseudo-version v<M>.<m>.<p>-[<N>.]<TS>-<H> assembled from its
pieces. -/
def pseudoVersion (M m p : Str) (N : Option Str) (TS H : Str) : Str :=
  'v' :: (M ++ '.' :: (m ++ '.' :: (p ++ '-' :: (optPart N ++ (TS ++ '-' :: H)))))

/-- A semantic version v<M>.<m>.<p>[-<pre>][+incompatible] assembled from
its pieces. -/
def semVersion (M m p : Str) (pre : Option Str) (inc : Bool) : Str :=
  'v' :: (M ++ '.' :: (m ++ '.' :: (p ++
    ((match pre with | none => [] | some q => '-' :: q) ++
     (if inc then '+' :: "incompatible".data else [])))))

/-- A non-empty string of decimal digits. -/
def digitRun (s : Str) : Bool := !s.isEmpty && s.all Char.isDigit

/-- The shape of a prerelease accepted by versionRx: an alphanumeric
character followed by at least one character of [0-9A-Za-z.-]. -/
def preShape : Str → Bool
  | c :: t => c.isAlphanum && !t.isEmpty && t.all isPreChar
  | [] => false

/-- The shape [0-9A-Za-z][-0-9A-Za-z]+ of a gopkg.in or golang.org/x path
segment: an alphanumeric character followed by at least one character of
[-0-9A-Za-z]. -/
def segShape : Str → Bool
  | c :: t => c.isAlphanum && !t.isEmpty && t.all gopkgClass
  | [] => false

/-- A gopkg.in path of the one-segment form gopkg.in/<pkg>.v<n>. -/
def gopkgPath1 (pkg n : Str) : Str := "gopkg.in/".data ++ (pkg ++ '.' :: 'v' :: n)

/-- A gopkg.in path of the two-segment form gopkg.in/<user>/<pkg>.v<n>. -/
def gopkgPath2 (user pkg n : Str) : Str :=
  "gopkg.in/".data ++ (user ++ '/' :: (pkg ++ '.' :: 'v' :: n))

/-- Modelled from the spec: the grouping-key algorithm as §4.3 words it:
walk the concatenation account_project; a character that is a letter,
digit, or underscore is kept, and every maximal run of other characters
becomes one underscore (the flag records being inside such a run);
lowercase the result.  Stated independently of the source's
regex-replacement so that claim C9 compares the two. -/
def specCollapse : Bool → Str → Str
  | _, [] => []
  | inRun, c :: t =>
    if wordChar c then c :: specCollapse false t
    else if inRun then specCollapse true t
    else '_' :: specCollapse true t

/-- Modelled from the spec: the §4.3 grouping key. -/
def groupSpec (acct proj : Str) : Str :=
  (specCollapse false (acct ++ '_' :: proj)).map Char.toLower

/- Helper lemmas about the string primitives. -/

theorem takeWhile_append_stop {p : Char → Bool} {xs : Str} {y : Char} {z : Str}
    (hxs : xs.all p = true) (hy : p y = false) :
    (xs ++ y :: z).takeWhile p = xs ∧ (xs ++ y :: z).dropWhile p = y :: z := by
  induction xs with
  | nil => simp [List.takeWhile_cons, List.dropWhile_cons, hy]
  | cons c t ih =>
    simp only [List.all_cons, Bool.and_eq_true] at hxs
    simpa [List.takeWhile_cons, List.dropWhile_cons, hxs.1] using ih hxs.2

theorem takeWhile_of_all {p : Char → Bool} {xs : Str} (hxs : xs.all p = true) :
    xs.takeWhile p = xs ∧ xs.dropWhile p = [] := by
  induction xs with
  | nil => simp
  | cons c t ih =>
    simp only [List.all_cons, Bool.and_eq_true] at hxs
    simpa [List.takeWhile_cons, List.dropWhile_cons, hxs.1] using ih hxs.2

theorem reqRun_append {p : Char → Bool} {xs : Str} {y : Char} {z : Str}
    (hne : xs.isEmpty = false) (hxs : xs.all p = true) (hy : p y = false) :
    reqRun p (xs ++ y :: z) = some (xs, y :: z) := by
  obtain ⟨h1, h2⟩ := takeWhile_append_stop (z := z) hxs hy
  simp [reqRun, h1, h2, hne]

theorem reqRun_of_all {p : Char → Bool} {xs : Str}
    (hne : xs.isEmpty = false) (hxs : xs.all p = true) :
    reqRun p xs = some (xs, []) := by
  obtain ⟨h1, h2⟩ := takeWhile_of_all hxs
  simp [reqRun, h1, h2, hne]

theorem reqChar_cons (c : Char) (t : Str) : reqChar c (c :: t) = some t := by
  simp [reqChar]

theorem stripPre_append (p s : Str) : stripPre p (p ++ s) = some s := by
  induction p with
  | nil => rfl
  | cons c t ih => simpa [stripPre] using ih

theorem digitRun_parts {s : Str} (h : digitRun s = true) :
    s.isEmpty = false ∧ s.all Char.isDigit = true := by
  simpa [digitRun, Bool.and_eq_true] using h

theorem tagRxMatch_pseudo (M m p : Str) (N : Option Str) (TS H : Str)
    (hM : digitRun M = true) (hm : digitRun m = true) (hp : digitRun p = true)
    (hN : ∀ q, N = some q → digitRun q = true)
    (hTSl : TS.length = 14) (hTSd : TS.all Char.isDigit = true)
    (hH : H.all isHexLower = true) (hHl : 8 ≤ H.length) :
    tagRxMatch (pseudoVersion M m p N TS H) = some (H.take 7) := by
  obtain ⟨hMe, hMd⟩ := digitRun_parts hM
  obtain ⟨hme, hmd⟩ := digitRun_parts hm
  obtain ⟨hpe, hpd⟩ := digitRun_parts hp
  have hdot : Char.isDigit '.' = false := by decide
  have hdash : Char.isDigit '-' = false := by decide
  have e7 : optNumDot (optPart N ++ (TS ++ '-' :: H)) = TS ++ '-' :: H := by
    cases N with
    | none =>
      obtain ⟨ht, hd⟩ := takeWhile_append_stop (z := H) hTSd hdash
      simp [optNumDot, optPart, hd]
    | some q =>
      obtain ⟨hqe, hqd⟩ := digitRun_parts (hN q rfl)
      obtain ⟨ht, hd⟩ := takeWhile_append_stop (z := TS ++ '-' :: H) hqd hdot
      simp [optNumDot, optPart, List.append_assoc, ht, hd, hqe]
  have e8 : (TS ++ '-' :: H).take 14 = TS := by
    rw [← hTSl]; exact List.take_left TS ('-' :: H)
  have e9 : (TS ++ '-' :: H).drop 14 = '-' :: H := by
    rw [← hTSl]; exact List.drop_left TS ('-' :: H)
  simp [tagRxMatch, pseudoVersion, reqChar_cons,
    reqRun_append hMe hMd hdot, reqRun_append hme hmd hdot,
    reqRun_append hpe hpd hdash, e7, e8, e9, hTSl, hTSd, hH, hHl]

theorem preShape_parts {q : Str} (h : preShape q = true) :
    ∃ c t, q = c :: t ∧ c.isAlphanum = true ∧ t.isEmpty = false ∧ t.all isPreChar = true := by
  cases q with
  | nil => simp [preShape] at h
  | cons c t => exact ⟨c, t, rfl, by simpa [preShape, Bool.and_eq_true, and_assoc] using h⟩

theorem isPreChar_of_alnum {c : Char} (h : c.isAlphanum = true) : isPreChar c = true := by
  simp [isPreChar, h]

theorem versionRxMatch_sem (M m p : Str) (pre : Option Str) (inc : Bool)
    (hM : digitRun M = true) (hm : digitRun m = true) (hp : digitRun p = true)
    (hpre : ∀ q, pre = some q → preShape q = true) :
    versionRxMatch (semVersion M m p pre inc) = some (semVersion M m p pre false) := by
  obtain ⟨hMe, hMd⟩ := digitRun_parts hM
  obtain ⟨hme, hmd⟩ := digitRun_parts hm
  obtain ⟨hpe, hpd⟩ := digitRun_parts hp
  have hdot : Char.isDigit '.' = false := by decide
  have hplus : Char.isDigit '+' = false := by decide
  have hdash : Char.isDigit '-' = false := by decide
  have hplusPre : isPreChar '+' = false := by decide
  cases pre with
  | none =>
    cases inc with
    | false =>
      simp [semVersion, versionRxMatch, reqChar_cons,
        reqRun_append hMe hMd hdot, reqRun_append hme hmd hdot,
        reqRun_of_all hpe hpd]
    | true =>
      simp [semVersion, versionRxMatch, reqChar_cons,
        reqRun_append hMe hMd hdot, reqRun_append hme hmd hdot,
        reqRun_append hpe hpd hplus]
  | some q =>
    obtain ⟨c, t', rfl, hca, hte, hta⟩ := preShape_parts (hpre q rfl)
    have hqall : (c :: t').all isPreChar = true := by
      simp [List.all_cons, isPreChar_of_alnum hca, hta]
    have htne : t' ≠ [] := by cases t' <;> simp_all
    cases inc with
    | false =>
      obtain ⟨htw, hdw⟩ := takeWhile_of_all hqall
      simp [semVersion, versionRxMatch, reqChar_cons,
        reqRun_append hMe hMd hdot, reqRun_append hme hmd hdot,
        reqRun_append hpe hpd hdash, hca, htw, hdw, htne]
    | true =>
      obtain ⟨htw, hdw⟩ := takeWhile_append_stop (z := "incompatible".data) hqall hplusPre
      rw [List.cons_append] at htw hdw
      simp [semVersion, versionRxMatch, reqChar_cons,
        reqRun_append hMe hMd hdot, reqRun_append hme hmd hdot,
        reqRun_append hpe hpd hdash, hca, htw, hdw, htne]

theorem stripPre_eq_some : ∀ {p n s : Str}, stripPre p n = some s → n = p ++ s
  | [], n, s, h => by simpa [stripPre] using h
  | _ :: _, [], _, h => by simp [stripPre] at h
  | c :: t, d :: n, s, h => by
    by_cases hd : d = c
    · subst hd
      simp only [stripPre, if_pos rfl] at h
      simpa using stripPre_eq_some h
    · simp [stripPre, hd] at h

/- Lemmas about the replace-operator separator: strings.Split never returns
an empty list, a string without the separator splits into itself alone, and
no part of a split contains the separator again. -/

theorem splitSep_ne_nil (s : Str) : splitSep s ≠ [] := by
  induction s using splitSep.induct with
  | case1 rest ih => simp [splitSep]
  | case2 c t hno hnil ih => simp [splitSep, hnil]
  | case3 c t hno h r hcons ih => simp [splitSep, hcons]
  | case4 => simp [splitSep]

theorem hasSep_cons_false {c : Char} {t : Str} (h : hasSep (c :: t) = false) :
    hasSep t = false := by
  rw [hasSep.eq_def] at h
  split at h
  · exact absurd h (by simp)
  · rename_i c2 t2 hh
    injection hh with h1 h2
    rw [h2]; exact h
  · rename_i hh
    exact absurd hh (by simp)

theorem hasSep_false_splitSep {s : Str} (h : hasSep s = false) : splitSep s = [s] := by
  induction s using splitSep.induct with
  | case1 rest ih => simp [hasSep] at h
  | case2 c t hno hnil ih =>
    exact absurd (ih (hasSep_cons_false h) ▸ hnil) (by simp)
  | case3 c t hno h r hcons ih =>
    simp [splitSep, ih (hasSep_cons_false h)]
  | case4 => simp [splitSep]

theorem hasSep_of_splitSep_pair {s : Str} {l : List Str}
    (h : splitSep s = l) (hl : 2 ≤ l.length) : hasSep s = true := by
  by_contra hx
  have hx : hasSep s = false := by simpa using hx
  rw [hasSep_false_splitSep hx] at h
  subst h
  simp at hl

theorem splitSep_head_prefix (s : Str) : ∀ h r, splitSep s = h :: r → h <+: s := by
  induction s using splitSep.induct with
  | case1 rest ih =>
    intro h r he
    simp only [splitSep, List.cons.injEq] at he
    exact he.1 ▸ List.nil_prefix
  | case2 c t hno hnil ih => exact absurd hnil (splitSep_ne_nil t)
  | case3 c t hno h r hcons ih =>
    intro a b he
    simp only [splitSep, hno, hcons, List.cons.injEq] at he
    obtain ⟨u, hu⟩ := ih h r hcons
    exact he.1 ▸ ⟨u, by simp [← hu]⟩
  | case4 =>
    intro h r he
    simp only [splitSep, List.cons.injEq] at he
    exact he.1 ▸ List.nil_prefix

theorem hasSep_cons_of {c : Char} {x : Str} (hx : hasSep x = true) :
    hasSep (c :: x) = true := by
  rw [hasSep.eq_def]
  split
  · rfl
  · rename_i c' t' hh
    injection hh with h1 h2
    exact h2 ▸ hx
  · rename_i hh
    exact absurd hh (by simp)

theorem hasSep_of_prefix {a s : Str} (hp : a <+: s) (h : hasSep a = true) :
    hasSep s = true := by
  obtain ⟨u, rfl⟩ := hp
  revert h
  induction a using hasSep.induct with
  | case1 tail =>
    intro h
    simp [hasSep]
  | case2 c t hno ih =>
    intro h
    rw [hasSep.eq_def] at h
    split at h
    · rename_i tail hh
      injection hh with h1 h2
      exact (hno tail h1 h2).elim
    · rename_i c2 t2 hh
      injection hh with h1 h2
      rw [List.cons_append]
      exact hasSep_cons_of (ih (by rw [h2]; exact h))
    · rename_i hh
      exact absurd hh (by simp)
  | case3 =>
    intro h
    simp [hasSep] at h

theorem splitSep_parts_no_sep (s : Str) : ∀ a ∈ splitSep s, hasSep a = false := by
  induction s using splitSep.induct with
  | case1 rest ih =>
    intro a ha
    simp only [splitSep, List.mem_cons] at ha
    rcases ha with rfl | ha
    · simp [hasSep]
    · exact ih a ha
  | case2 c t hno hnil ih => exact absurd hnil (splitSep_ne_nil t)
  | case3 c t hno h r hcons ih =>
    intro a ha
    simp only [splitSep, hno, hcons, List.mem_cons] at ha
    rcases ha with rfl | ha
    · by_contra hx
      have hx : hasSep (c :: h) = true := by simpa using hx
      rw [hasSep.eq_def] at hx
      split at hx
      · rename_i tail hh
        injection hh with h1 h2
        obtain ⟨u, hu⟩ := splitSep_head_prefix t h r hcons
        exact hno (tail ++ u) h1 (by rw [← hu, h2]; simp)
      · rename_i c' t' hh
        injection hh with h1 h2
        have hf : hasSep h = false := ih h (hcons ▸ List.mem_cons_self h r)
        rw [h2] at hf
        exact absurd hx (by simp [hf])
      · rename_i hh
        exact absurd hh (by simp)
    · exact ih a (hcons ▸ List.mem_cons_of_mem h ha)
  | case4 =>
    intro a ha
    simp only [splitSep, List.mem_cons, List.not_mem_nil, or_false] at ha
    subst ha
    simp [hasSep]

theorem ParsePackage_no_sep {s : Str} (h : hasSep s = false) :
    ParsePackage s = parsePlainSpec s := by
  simp [ParsePackage, h]

/- Evaluation of ParsePackage on a plain spec, given evaluations of its
ingredients. -/

theorem ParsePackage_plain_ok {spec name version acct proj tag : Str}
    (hsep : hasSep spec = false) (hf : fields spec = [name, version])
    (hres : resolveName name = .ok (acct, proj)) (hv : parseVersion version = some tag) :
    ParsePackage spec = .ok ⟨name, acct, proj, tag⟩ := by
  simp [ParsePackage, hsep, parsePlainSpec, hf, hres, hv]

theorem ParsePackage_plain_err_name {spec name version : Str} {e : Str}
    (hsep : hasSep spec = false) (hf : fields spec = [name, version])
    (hres : resolveName name = .error e) :
    ParsePackage spec = .error e := by
  simp [ParsePackage, hsep, parsePlainSpec, hf, hres]

/-- C1 (amended): for every plain spec (no replace operator, exactly two
fields) whose version string has the pseudo-version shape
v<M>.<m>.<p>-[<N>.]<TS>-<H> — M, m, p, N non-empty digit runs, TS exactly
14 digits, H lowercase hex of length at least 8 — and whose name resolves
without a parse error, ParsePackage succeeds and the Tag is exactly the
first 7 characters of H, the remainder of H being discarded. -/
theorem c1_pseudo_version_tag (spec name M m p : Str) (N : Option Str)
    (TS H acct proj : Str)
    (hsep : hasSep spec = false)
    (hf : fields spec = [name, pseudoVersion M m p N TS H])
    (hM : digitRun M = true) (hm : digitRun m = true) (hp : digitRun p = true)
    (hN : ∀ q, N = some q → digitRun q = true)
    (hTSl : TS.length = 14) (hTSd : TS.all Char.isDigit = true)
    (hH : H.all isHexLower = true) (hHl : 8 ≤ H.length)
    (hres : resolveName name = .ok (acct, proj)) :
    ParsePackage spec = .ok ⟨name, acct, proj, H.take 7⟩ :=
  ParsePackage_plain_ok hsep hf hres (by
    simp [parseVersion, tagRxMatch_pseudo M m p N TS H hM hm hp hN hTSl hTSd hH hHl])

/-- C1 witness: the spec's own example, a 12-character commit hash. -/
theorem c1_pseudo_version_tag_witness :
    ParsePackage "example.com/pkg v0.0.0-20181001143604-e0a95dfd547c".data
      = .ok ⟨"example.com/pkg".data, [], [], "e0a95dfd547c".data.take 7⟩ :=
  c1_pseudo_version_tag "example.com/pkg v0.0.0-20181001143604-e0a95dfd547c".data
    "example.com/pkg".data "0".data "0".data "0".data none
    "20181001143604".data "e0a95dfd547c".data [] []
    (by decide) (by decide) (by decide) (by decide) (by decide)
    (fun q h => Option.noConfusion h) (by decide) (by decide) (by decide)
    (by decide) (by decide)

/-- C1 counterexample: with a commit hash of exactly 7 hex characters —
which the claim admits, "7 or more" — tagRx does not match (its capture
group of 7 must be followed by at least one more hex character), the
version falls through to the semantic-version pattern, and the Tag is the
whole version string rather than the 7 hash characters. -/
theorem c1_counterexample :
    ParsePackage "example.com/pkg v0.0.0-20181001143604-abcdef0".data
      = .ok ⟨"example.com/pkg".data, [], [], "v0.0.0-20181001143604-abcdef0".data⟩
    ∧ "v0.0.0-20181001143604-abcdef0".data ≠ "abcdef0".data := by
  exact ⟨rfl, by decide⟩

/-- C2 (amended): for every plain spec whose version string has the form
v<M>.<m>.<p>[-<pre>][+incompatible] — with a prerelease, when present, that
starts with an alphanumeric character and continues with AT LEAST ONE more
character drawn from alphanumerics, dots, and hyphens — and whose version
does not match the pseudo-version pattern (which is tried first), and whose
name resolves without error, ParsePackage succeeds and the Tag is the
version with any +incompatible suffix removed and the prerelease
retained. -/
theorem c2_semantic_version_tag (spec name M m p : Str) (pre : Option Str)
    (inc : Bool) (acct proj : Str)
    (hsep : hasSep spec = false)
    (hf : fields spec = [name, semVersion M m p pre inc])
    (hM : digitRun M = true) (hm : digitRun m = true) (hp : digitRun p = true)
    (hpre : ∀ q, pre = some q → preShape q = true)
    (hpseudo : tagRxMatch (semVersion M m p pre inc) = none)
    (hres : resolveName name = .ok (acct, proj)) :
    ParsePackage spec = .ok ⟨name, acct, proj, semVersion M m p pre false⟩ :=
  ParsePackage_plain_ok hsep hf hres (by
    simp [parseVersion, hpseudo, versionRxMatch_sem M m p pre inc hM hm hp hpre])

/-- C2 witness: v1.2.3-rc.1+incompatible keeps the prerelease and drops the
suffix. -/
theorem c2_semantic_version_tag_witness :
    ParsePackage "example.com/pkg v1.2.3-rc.1+incompatible".data
      = .ok ⟨"example.com/pkg".data, [], [],
          semVersion "1".data "2".data "3".data (some "rc.1".data) false⟩ :=
  c2_semantic_version_tag "example.com/pkg v1.2.3-rc.1+incompatible".data
    "example.com/pkg".data "1".data "2".data "3".data (some "rc.1".data) true [] []
    (by decide) (by decide) (by decide) (by decide) (by decide)
    (fun q h => by
      simp only [Option.some.injEq] at h
      subst h; decide)
    (by decide) (by decide)

/-- C2 counterexample: a prerelease of a single character, which the claim
explicitly includes, is rejected by versionRx (whose prerelease needs at
least two characters), so ParsePackage fails instead of succeeding. -/
theorem c2_counterexample :
    ParsePackage "example.com/pkg v1.2.3-a".data
      = .error ("unexpected version string: ".data ++ goQuote "v1.2.3-a".data) := rfl

/-- C3: splitting a spec on " => " into exactly two parts, both of which
parse, yields the old side's Name with the new side's Account, Project and
Tag; more than two parts is an error, and an error in either side is
propagated (an empty side always fails to parse, having zero fields). -/
theorem c3_replace_directive :
    (∀ spec a b pOld pNew, splitSep spec = [a, b] →
        ParsePackage a = .ok pOld → ParsePackage b = .ok pNew →
        ParsePackage spec = .ok ⟨pOld.Name, pNew.Account, pNew.Project, pNew.Tag⟩)
  ∧ (∀ spec, 3 ≤ (splitSep spec).length →
        ParsePackage spec =
          .error ("unexpected number of packages in replace spec: ".data ++ goQuote spec))
  ∧ (∀ spec a b e, splitSep spec = [a, b] → ParsePackage a = .error e →
        ParsePackage spec = .error e)
  ∧ (∀ spec a b pOld e, splitSep spec = [a, b] → ParsePackage a = .ok pOld →
        ParsePackage b = .error e → ParsePackage spec = .error e) := by
  have key : ∀ spec a b, splitSep spec = [a, b] →
      hasSep spec = true ∧ ParsePackage a = parsePlainSpec a ∧
        ParsePackage b = parsePlainSpec b := by
    intro spec a b hsp
    refine ⟨hasSep_of_splitSep_pair hsp (by simp), ?_, ?_⟩
    · exact ParsePackage_no_sep (splitSep_parts_no_sep spec a (by rw [hsp]; simp))
    · exact ParsePackage_no_sep (splitSep_parts_no_sep spec b (by rw [hsp]; simp))
  refine ⟨?_, ?_, ?_, ?_⟩
  · intro spec a b pOld pNew hsp hA hB
    obtain ⟨h1, h2, h3⟩ := key spec a b hsp
    rw [h2] at hA
    rw [h3] at hB
    cases pNew
    simp [ParsePackage, h1, hsp, hA, hB]
  · intro spec hlen
    have h1 : hasSep spec = true :=
      hasSep_of_splitSep_pair rfl (le_trans (by omega) hlen)
    obtain ⟨x, l2, hx⟩ : ∃ x l2, splitSep spec = x :: l2 := by
      cases hsx : splitSep spec with
      | nil => exact absurd hsx (splitSep_ne_nil spec)
      | cons x l2 => exact ⟨x, l2, rfl⟩
    obtain ⟨y, l3, hy⟩ : ∃ y l3, l2 = y :: l3 := by
      cases l2 with
      | nil => rw [hx] at hlen; simp at hlen
      | cons y l3 => exact ⟨y, l3, rfl⟩
    obtain ⟨z, l4, hz⟩ : ∃ z l4, l3 = z :: l4 := by
      cases l3 with
      | nil => rw [hx, hy] at hlen; simp at hlen
      | cons z l4 => exact ⟨z, l4, rfl⟩
    subst hy hz
    simp [ParsePackage, h1, hx]
  · intro spec a b e hsp hA
    obtain ⟨h1, h2, h3⟩ := key spec a b hsp
    rw [h2] at hA
    simp [ParsePackage, h1, hsp, hA]
  · intro spec a b pOld e hsp hA hB
    obtain ⟨h1, h2, h3⟩ := key spec a b hsp
    rw [h2] at hA
    rw [h3] at hB
    simp [ParsePackage, h1, hsp, hA, hB]

/-- C3 witness: the spec's replace-directive example. -/
theorem c3_replace_directive_witness :
    ParsePackage "old.example.com/a v1.0.0 => github.com/x/y v1.2.0".data
      = .ok ⟨"old.example.com/a".data, "x".data, "y".data, "v1.2.0".data⟩ :=
  c3_replace_directive.1 "old.example.com/a v1.0.0 => github.com/x/y v1.2.0".data
    "old.example.com/a v1.0.0".data "github.com/x/y v1.2.0".data
    ⟨"old.example.com/a".data, [], [], "v1.0.0".data⟩
    ⟨"github.com/x/y".data, "x".data, "y".data, "v1.2.0".data⟩
    (by decide) rfl rfl

/-- C4: a github.com name outside the static table with at least three
slash-separated segments resolves to the 2nd segment as Account and the 3rd
as Project, further segments ignored; with fewer than three segments
ParsePackage is a hard parse error, whatever the version. -/
theorem c4_github_resolution :
    (∀ spec name version tag s1 s2 s3 rest,
        hasSep spec = false → fields spec = [name, version] →
        lookupWellKnown name = none → hasPre "github.com".data name = true →
        splitSlash name = s1 :: s2 :: s3 :: rest →
        parseVersion version = some tag →
        ParsePackage spec = .ok ⟨name, s2, s3, tag⟩)
  ∧ (∀ spec name version,
        hasSep spec = false → fields spec = [name, version] →
        lookupWellKnown name = none → hasPre "github.com".data name = true →
        (splitSlash name).length < 3 →
        ParsePackage spec =
          .error ("unexpected Github package name: ".data ++ goQuote name)) := by
  constructor
  · intro spec name version tag s1 s2 s3 rest hsep hf hlk hpre hsp hv
    have hl3 : ¬ (splitSlash name).length < 3 := by
      rw [hsp]; simp
    have hres : resolveName name = .ok (s2, s3) := by
      simp [resolveName, hlk, hpre, hl3, hsp]
    exact ParsePackage_plain_ok hsep hf hres hv
  · intro spec name version hsep hf hlk hpre hlen
    have hres : resolveName name =
        .error ("unexpected Github package name: ".data ++ goQuote name) := by
      simp [resolveName, hlk, hpre, hlen]
    exact ParsePackage_plain_err_name hsep hf hres

/-- C4 witness: github.com/foo/bar resolves to foo and bar; github.com/foo
is a fatal parse error. -/
theorem c4_github_resolution_witness :
    ParsePackage "github.com/foo/bar v1.0.0".data
      = .ok ⟨"github.com/foo/bar".data, "foo".data, "bar".data, "v1.0.0".data⟩
    ∧ ParsePackage "github.com/foo v1.0.0".data
      = .error ("unexpected Github package name: ".data ++ goQuote "github.com/foo".data) :=
  ⟨c4_github_resolution.1 "github.com/foo/bar v1.0.0".data "github.com/foo/bar".data
      "v1.0.0".data "v1.0.0".data "github.com".data "foo".data "bar".data []
      (by decide) (by decide) (by decide) (by decide) (by decide) (by decide),
   c4_github_resolution.2 "github.com/foo v1.0.0".data "github.com/foo".data "v1.0.0".data
      (by decide) (by decide) (by decide) (by decide) (by decide)⟩

/-- C10: the github.com rule fires on a bare string-prefix test, with no
slash required after the prefix: any non-table name beginning with the ten
characters github.com is resolved (or rejected) by the github rule; in
particular the foreign host github.company/a/b resolves to account a and
project b, and the three-segment-less github.comx is a fatal parse
error. -/
theorem c10_github_prefix_literal :
    (∀ name, lookupWellKnown name = none → hasPre "github.com".data name = true →
        resolveName name =
          (if (splitSlash name).length < 3 then
            .error ("unexpected Github package name: ".data ++ goQuote name)
          else .ok ((splitSlash name).getD 1 [], (splitSlash name).getD 2 [])))
  ∧ ParsePackage "github.company/a/b v1.0.0".data
      = .ok ⟨"github.company/a/b".data, "a".data, "b".data, "v1.0.0".data⟩
  ∧ ParsePackage "github.comx v1.0.0".data
      = .error ("unexpected Github package name: ".data ++ goQuote "github.comx".data) := by
  refine ⟨?_, rfl, rfl⟩
  intro name hlk hpre
  simp [resolveName, hlk, hpre]

/-- C10 witness. -/
theorem c10_github_prefix_literal_witness :
    resolveName "github.company/a/b".data =
      (if (splitSlash "github.company/a/b".data).length < 3 then
        .error ("unexpected Github package name: ".data ++ goQuote "github.company/a/b".data)
      else .ok ((splitSlash "github.company/a/b".data).getD 1 [],
                (splitSlash "github.company/a/b".data).getD 2 [])) :=
  c10_github_prefix_literal.1 "github.company/a/b".data (by decide) (by decide)

/-- C6: a name in the well-known table resolves to exactly the table entry,
and no hosting-prefix rule runs: gopkg.in/fsnotify.v1 resolves to
(fsnotify, fsnotify) although the gopkg.in pattern by itself would give
(go-fsnotify, fsnotify). -/
theorem c6_table_precedence :
    (∀ name wk, lookupWellKnown name = some wk →
        resolveName name = .ok (wk.Account, wk.Project))
  ∧ resolveName "gopkg.in/fsnotify.v1".data = .ok ("fsnotify".data, "fsnotify".data)
  ∧ parseGopkgInPackage "gopkg.in/fsnotify.v1".data
      = ("go-fsnotify".data, "fsnotify".data) := by
  refine ⟨?_, rfl, rfl⟩
  intro name wk hlk
  simp [resolveName, hlk]

/-- C6 witness. -/
theorem c6_table_precedence_witness :
    resolveName "gopkg.in/fsnotify.v1".data
      = .ok (("fsnotify".data : Str), ("fsnotify".data : Str)) :=
  c6_table_precedence.1 "gopkg.in/fsnotify.v1".data
    ⟨"fsnotify".data, "fsnotify".data⟩ (by decide)

/- The golang.org/x rule. -/

theorem segShape_parts {q : Str} (h : segShape q = true) :
    ∃ c t, q = c :: t ∧ c.isAlphanum = true ∧ t.isEmpty = false ∧
      t.all gopkgClass = true := by
  cases q with
  | nil => simp [segShape] at h
  | cons c t =>
    exact ⟨c, t, rfl, by simpa [segShape, Bool.and_eq_true, and_assoc] using h⟩

theorem hasPre_parts {p s : Str} (h : hasPre p s = true) : ∃ u, s = p ++ u := by
  unfold hasPre at h
  cases hs : stripPre p s with
  | none => rw [hs] at h; simp at h
  | some u => exact ⟨u, stripPre_eq_some hs⟩

theorem golangOrgMatch_some {name pkg : Str} (h : golangOrgMatch name = some pkg) :
    name = "golang.org/x/".data ++ pkg ∧ segShape pkg = true := by
  unfold golangOrgMatch at h
  cases hs : stripPre "golang.org/x/".data name with
  | none => rw [hs] at h; exact absurd h (by simp)
  | some s =>
    rw [hs] at h
    cases s with
    | nil => exact absurd h (by simp)
    | cons c t =>
      by_cases hc : (c.isAlphanum && !t.isEmpty && t.all gopkgClass) = true
      · simp only [hc, if_true, Option.some.injEq] at h
        subst h
        exact ⟨stripPre_eq_some hs, by simpa [segShape] using hc⟩
      · simp only [Bool.not_eq_true] at hc
        simp [hc] at h

/-- C7 (amended): golang.org/x/<pkg> resolves to the fixed account golang
and project <pkg> exactly when <pkg> consists of an alphanumeric character
followed by at least one character of [-0-9A-Za-z]; every other name gives
two empty fields, and for any non-table golang.org name the resolver
returns whatever the pattern gives, never a parse failure. -/
theorem c7_golang_org :
    (∀ pkg, segShape pkg = true →
        parseGolangOrgPackage ("golang.org/x/".data ++ pkg) = ("golang".data, pkg))
  ∧ (∀ name, (¬ ∃ pkg, segShape pkg = true ∧ name = "golang.org/x/".data ++ pkg) →
        parseGolangOrgPackage name = ([], []))
  ∧ (∀ name, lookupWellKnown name = none → hasPre "golang.org".data name = true →
        resolveName name = .ok (parseGolangOrgPackage name)) := by
  refine ⟨?_, ?_, ?_⟩
  · intro pkg h
    obtain ⟨c, t, rfl, hca, hte, hta⟩ := segShape_parts h
    have htne : t ≠ [] := by
      cases t
      · simp at hte
      · simp
    have hta2 : ∀ x ∈ t, gopkgClass x = true := List.all_eq_true.mp hta
    unfold parseGolangOrgPackage golangOrgMatch
    rw [stripPre_append]
    simp [hca, hte, hta, htne, hta2]
  · intro name hno
    cases hg : golangOrgMatch name with
    | none => simp [parseGolangOrgPackage, hg]
    | some pkg =>
      obtain ⟨h1, h2⟩ := golangOrgMatch_some hg
      exact absurd ⟨pkg, h2, h1⟩ hno
  · intro name hlk hpre
    obtain ⟨u, hu⟩ := hasPre_parts hpre
    have hgh : hasPre "github.com".data name = false := by rw [hu]; rfl
    have hgp : hasPre "gopkg.in".data name = false := by rw [hu]; rfl
    simp [resolveName, hlk, hgh, hgp, hpre]

/-- C7 witness: golang.org/x/text resolves to golang and text. -/
theorem c7_golang_org_witness :
    parseGolangOrgPackage ("golang.org/x/".data ++ "text".data)
      = ("golang".data, "text".data) :=
  c7_golang_org.1 "text".data (by decide)

/-- C7 counterexample: golang.org/x/a, a single-character package (which is
a golang.org/x/<pkg> form, and not in the static table), is rejected by
golangOrgRx, whose capture needs at least two characters, and resolves to
two empty fields instead of (golang, a). -/
theorem c7_counterexample :
    parseGolangOrgPackage "golang.org/x/a".data = ([], [])
    ∧ (([], []) : Str × Str) ≠ ("golang".data, "a".data)
    ∧ lookupWellKnown "golang.org/x/a".data = none :=
  ⟨rfl, by decide, rfl⟩

/- The gopkg.in rule. -/

theorem isEmpty_false_of_ne_nil {t : Str} (h : t ≠ []) : t.isEmpty = false := by
  cases t
  · exact absurd rfl h
  · rfl

/-- C5 (amended): with <seg> standing for an alphanumeric character
followed by at least one character of [-0-9A-Za-z], and <n> a non-empty
string without a newline: gopkg.in/<seg>.v<n> resolves to account
"go-"+<seg> and project <seg>; so does the suffix-less gopkg.in/<seg>
(the .v suffix of the pattern's first group is optional);
gopkg.in/<user-seg>/<seg>.v<n> resolves to account <user-seg> and project
<seg>; every gopkg.in path the pattern rejects yields two empty fields;
and a non-table gopkg.in name never produces a parse failure, the resolver
returning whatever the pattern gives. -/
theorem c5_gopkg_in :
    (∀ pkg n, segShape pkg = true → n ≠ [] → n.all (fun x => x != '\n') = true →
        parseGopkgInPackage (gopkgPath1 pkg n) = ("go-".data ++ pkg, pkg))
  ∧ (∀ pkg, segShape pkg = true →
        parseGopkgInPackage ("gopkg.in/".data ++ pkg) = ("go-".data ++ pkg, pkg))
  ∧ (∀ user pkg n, segShape user = true → segShape pkg = true → n ≠ [] →
        n.all (fun x => x != '\n') = true →
        parseGopkgInPackage (gopkgPath2 user pkg n) = (user, pkg))
  ∧ (∀ name, gopkgInMatch name = none → parseGopkgInPackage name = ([], []))
  ∧ (∀ name, lookupWellKnown name = none → hasPre "gopkg.in".data name = true →
        resolveName name = .ok (parseGopkgInPackage name)) := by
  have hdotcls : gopkgClass '.' = false := by decide
  have hslashcls : gopkgClass '/' = false := by decide
  refine ⟨?_, ?_, ?_, ?_, ?_⟩
  · intro pkg n hs hn hnl
    obtain ⟨c, t, rfl, hca, hte, hta⟩ := segShape_parts hs
    obtain ⟨htw, hdw⟩ := takeWhile_append_stop (z := 'v' :: n) hta hdotcls
    have hne := isEmpty_false_of_ne_nil hn
    unfold gopkgPath1 parseGopkgInPackage gopkgInMatch
    rw [stripPre_append]
    simp [hca, hte, htw, hdw, hne, hnl]
  · intro pkg hs
    obtain ⟨c, t, rfl, hca, hte, hta⟩ := segShape_parts hs
    obtain ⟨htw, hdw⟩ := takeWhile_of_all hta
    unfold parseGopkgInPackage gopkgInMatch
    rw [stripPre_append]
    simp [hca, hte, htw, hdw]
  · intro user pkg n hsu hsp hn hnl
    obtain ⟨c, t, rfl, hca, hte, hta⟩ := segShape_parts hsu
    obtain ⟨c2, t2, rfl, hca2, hte2, hta2⟩ := segShape_parts hsp
    obtain ⟨htw, hdw⟩ :=
      takeWhile_append_stop (z := (c2 :: t2) ++ '.' :: 'v' :: n) hta hslashcls
    rw [List.cons_append] at htw hdw
    obtain ⟨htw2, hdw2⟩ := takeWhile_append_stop (z := 'v' :: n) hta2 hdotcls
    have hne := isEmpty_false_of_ne_nil hn
    unfold gopkgPath2 parseGopkgInPackage gopkgInMatch
    rw [stripPre_append]
    simp [hca, hte, hca2, hte2, htw, hdw, htw2, hdw2, hne, hnl]
  · intro name hg
    simp [parseGopkgInPackage, hg]
  · intro name hlk hpre
    obtain ⟨u, hu⟩ := hasPre_parts hpre
    have hgh : hasPre "github.com".data name = false := by rw [hu]; rfl
    simp [resolveName, hlk, hgh, hpre]

/-- C5 witness: the spec's examples gopkg.in/yaml.v2 and
gopkg.in/go-check/check.v1. -/
theorem c5_gopkg_in_witness :
    parseGopkgInPackage (gopkgPath1 "yaml".data "2".data)
      = ("go-".data ++ "yaml".data, "yaml".data)
    ∧ parseGopkgInPackage (gopkgPath2 "go-check".data "check".data "1".data)
      = ("go-check".data, "check".data) :=
  ⟨c5_gopkg_in.1 "yaml".data "2".data (by decide) (by decide) (by decide),
   c5_gopkg_in.2.2.1 "go-check".data "check".data "1".data
     (by decide) (by decide) (by decide) (by decide)⟩

/-- C5 counterexample: gopkg.in/yaml — not in the table, and matching
neither of the two claimed forms, since it carries no .v<N> suffix —
resolves to (go-yaml, yaml) rather than to two empty fields: the .v suffix
of gopkgInRx's first group is optional. -/
theorem c5_counterexample :
    parseGopkgInPackage "gopkg.in/yaml".data = ("go-yaml".data, "yaml".data)
    ∧ (("go-yaml".data, "yaml".data) : Str × Str) ≠ ([], [])
    ∧ lookupWellKnown "gopkg.in/yaml".data = none :=
  ⟨rfl, by decide, rfl⟩

/- The grouping key. -/

theorem specCollapse_true_drop (t : Str) :
    specCollapse true t = specCollapse false (t.dropWhile (fun x => !wordChar x)) := by
  induction t with
  | nil => simp [specCollapse]
  | cons c r ih =>
    by_cases hc : wordChar c
    · simp [specCollapse, hc, List.dropWhile_cons]
    · simp [specCollapse, hc, List.dropWhile_cons, ih]

theorem collapseNonWord_eq_spec (s : Str) : collapseNonWord s = specCollapse false s := by
  induction s using collapseNonWord.induct with
  | case1 => simp [collapseNonWord, specCollapse]
  | case2 c t hc ih => simp [collapseNonWord, specCollapse, hc, ih]
  | case3 c t hc ih =>
    simp [collapseNonWord, specCollapse, hc, ih, specCollapse_true_drop]

/-- C9: for every package, Group() is the lowercasing of the concatenation
account-underscore-project after every maximal run of characters outside
letter/digit/underscore has been replaced by a single underscore — stated
against the independent specification-side collapse function — and account
Foo.Bar with project Baz yields foo_bar_baz. -/
theorem c9_group_key :
    (∀ pk : Package, Group pk = groupSpec pk.Account pk.Project)
  ∧ Group ⟨[], "Foo.Bar".data, "Baz".data, []⟩ = "foo_bar_baz".data := by
  constructor
  · intro pk
    simp [Group, groupSpec, collapseNonWord_eq_spec]
  · have h : Group ⟨[], "Foo.Bar".data, "Baz".data, []⟩
        = groupSpec "Foo.Bar".data "Baz".data := by
      simp [Group, groupSpec, collapseNonWord_eq_spec]
    rw [h]
    decide

/- The output ordering: Go's byte-wise string order is a strict total
order, and the Less order of PackagesByAccountAndProject is its non-strict
complement on rendered strings. -/

theorem lexLt_irrefl (s : Str) : lexLt s s = false := by
  induction s with
  | nil => rfl
  | cons c t ih => simp [lexLt, ih]

theorem lexLt_trans : ∀ (s1 s2 s3 : Str),
    lexLt s1 s2 = true → lexLt s2 s3 = true → lexLt s1 s3 = true
  | [], [], _, h1, _ => by simp [lexLt] at h1
  | [], _ :: _, [], _, h2 => by simp [lexLt] at h2
  | [], _ :: _, _ :: _, _, _ => by simp [lexLt]
  | _ :: _, [], _, h1, _ => by simp [lexLt] at h1
  | _ :: _, _ :: _, [], _, h2 => by simp [lexLt] at h2
  | a :: t1, b :: t2, c :: t3, h1, h2 => by
    simp only [lexLt] at h1 h2 ⊢
    by_cases hab : a = b
    · subst hab
      by_cases hac : a = c
      · subst hac
        simp only [if_pos rfl] at h1 h2 ⊢
        exact lexLt_trans t1 t2 t3 h1 h2
      · simp only [if_pos rfl] at h1
        simp only [if_neg hac] at h2 ⊢
        exact h2
    · by_cases hbc : b = c
      · subst hbc
        simp only [if_neg hab] at h1 ⊢
        exact h1
      · have ha : a < b := by simpa [hab] using h1
        have hb : b < c := by simpa [hbc] using h2
        have hac : a < c := lt_trans ha hb
        simp [ne_of_lt hac, hac]

theorem lexLt_asymm {a b : Str} (h : lexLt a b = true) : lexLt b a = false := by
  by_contra hx
  have hx : lexLt b a = true := by simpa using hx
  have h2 := lexLt_trans a b a h hx
  rw [lexLt_irrefl] at h2
  exact absurd h2 (by simp)

theorem lexLt_total (a b : Str) : lexLt a b = true ∨ a = b ∨ lexLt b a = true := by
  induction a generalizing b with
  | nil =>
    cases b with
    | nil => exact Or.inr (Or.inl rfl)
    | cons d u => exact Or.inl (by simp [lexLt])
  | cons c t ih =>
    cases b with
    | nil => exact Or.inr (Or.inr (by simp [lexLt]))
    | cons d u =>
      by_cases hcd : c = d
      · subst hcd
        rcases ih u with h | h | h
        · exact Or.inl (by simp [lexLt, h])
        · exact Or.inr (Or.inl (by rw [h]))
        · exact Or.inr (Or.inr (by simp [lexLt, h]))
      · rcases lt_trichotomy c d with h | h | h
        · exact Or.inl (by simp [lexLt, hcd, h])
        · exact absurd h hcd
        · exact Or.inr (Or.inr (by simp [lexLt, Ne.symm hcd, h]))

theorem pkgLe_total (pre : Str) : ∀ x y : Package, pkgLe pre x y ∨ pkgLe pre y x := by
  intro x y
  unfold pkgLe
  rcases lexLt_total (renderPackage pre x) (renderPackage pre y) with h | h | h
  · exact Or.inl (lexLt_asymm h)
  · exact Or.inl (by rw [h, lexLt_irrefl])
  · exact Or.inr (lexLt_asymm h)

theorem pkgLe_trans (pre : Str) : ∀ x y z : Package,
    pkgLe pre x y → pkgLe pre y z → pkgLe pre x z := by
  intro x y z h1 h2
  unfold pkgLe at h1 h2 ⊢
  by_contra hx
  have hx : lexLt (renderPackage pre z) (renderPackage pre x) = true := by simpa using hx
  rcases lexLt_total (renderPackage pre x) (renderPackage pre y) with h | h | h
  · have h3 := lexLt_trans _ _ _ hx h
    exact absurd h3 (by simp [h2])
  · rw [h] at hx
    exact absurd hx (by simp [h2])
  · exact absurd h (by simp [h1])

/-- The scan loop keeps every marked line's package, the parsed ones and
the unresolved ones each in encounter order: the two lists main accumulates
are exactly the Parsed / not-Parsed filters of the in-order parse of all
marked lines. -/
theorem collectPackages_spec : ∀ (lines : List Str) (ps us : List Package),
    collectPackages lines = .ok (ps, us) →
    ∃ all, parseAll (scanSpecs lines) = .ok all ∧
      ps = all.filter (fun pk => Parsed pk) ∧
      us = all.filter (fun pk => !Parsed pk) := by
  intro lines
  induction lines with
  | nil =>
    intro ps us h
    simp only [collectPackages, Except.ok.injEq, Prod.mk.injEq] at h
    exact ⟨[], by simp [parseAll, scanSpecs], by simp [← h.1], by simp [← h.2]⟩
  | cons line rest ih =>
    intro ps us h
    simp only [collectPackages] at h
    split at h
    · rename_i hst
      have hsc : scanSpecs (line :: rest) = scanSpecs rest := by
        simp [scanSpecs, List.filterMap_cons, hst]
      rw [hsc]
      exact ih ps us h
    · rename_i spec hst
      split at h
      · simp at h
      · rename_i p hpp
        split at h
        · simp at h
        · rename_i ps' us' hcr
          obtain ⟨all', ha, hps, hus⟩ := ih ps' us' hcr
          have hsc : scanSpecs (line :: rest) = spec :: scanSpecs rest := by
            simp [scanSpecs, List.filterMap_cons, hst]
          refine ⟨p :: all', ?_, ?_, ?_⟩
          · rw [hsc]
            simp [parseAll, hpp, ha]
          · by_cases hP : Parsed p
            · simp only [hP, if_true, Except.ok.injEq, Prod.mk.injEq] at h
              rw [← h.1, List.filter_cons, hps]
              simp [hP]
            · simp only [hP, Bool.false_eq_true, if_false, Except.ok.injEq,
                Prod.mk.injEq] at h
              rw [← h.1, List.filter_cons, hps]
              simp [hP]
          · by_cases hP : Parsed p
            · simp only [hP, if_true, Except.ok.injEq, Prod.mk.injEq] at h
              rw [← h.2, List.filter_cons, hus]
              simp [hP]
            · simp only [hP, Bool.false_eq_true, if_false, Except.ok.injEq,
                Prod.mk.injEq] at h
              rw [← h.2, List.filter_cons, hus]
              simp [hP]

/-- C8: when the scan of the manifest lines succeeds, the emitted lines are
the GH_TUPLE header, then one line per resolved package — a permutation of
the resolved packages in non-decreasing byte-wise lexicographic order of
their rendered account:project:tag:group/prefix/name strings — and only
after that one comment line per unresolved package; the resolved and
unresolved lists are the Parsed / not-Parsed filters, in encounter order,
of the in-order parse of the marked lines, so no unresolved package ever
appears inside the GH_TUPLE block. -/
theorem c8_output_order (pre : Str) (lines : List Str) (ps us : List Package)
    (h : collectPackages lines = .ok (ps, us)) :
    (sortPackages pre ps).Perm ps
    ∧ List.Sorted (fun s t : Str => lexLt t s = false)
        ((sortPackages pre ps).map (renderPackage pre))
    ∧ outputLines pre ps us =
        "GH_TUPLE=\t\\".data ::
          (tupleLines pre (sortPackages pre ps) ++ us.map (commentLine pre))
    ∧ ∃ all, parseAll (scanSpecs lines) = .ok all ∧
        ps = all.filter (fun pk => Parsed pk) ∧
        us = all.filter (fun pk => !Parsed pk) := by
  haveI : IsTotal Package (pkgLe pre) := ⟨pkgLe_total pre⟩
  haveI : IsTrans Package (pkgLe pre) := ⟨pkgLe_trans pre⟩
  refine ⟨List.perm_insertionSort _ _, ?_, rfl, collectPackages_spec lines ps us h⟩
  have hs := List.sorted_insertionSort (pkgLe pre) ps
  exact List.Pairwise.map _ (fun a b hab => hab) hs

/-- C8 witness: two resolvable github lines out of order, one unresolvable
line, one unmarked line. -/
theorem c8_output_order_witness :
    (sortPackages "vendor".data
        [⟨"github.com/b/a".data, "b".data, "a".data, "v1.0.0".data⟩,
         ⟨"github.com/a/b".data, "a".data, "b".data, "v1.0.0".data⟩]).Perm
      [⟨"github.com/b/a".data, "b".data, "a".data, "v1.0.0".data⟩,
       ⟨"github.com/a/b".data, "a".data, "b".data, "v1.0.0".data⟩]
    ∧ List.Sorted (fun s t : Str => lexLt t s = false)
        ((sortPackages "vendor".data
          [⟨"github.com/b/a".data, "b".data, "a".data, "v1.0.0".data⟩,
           ⟨"github.com/a/b".data, "a".data, "b".data, "v1.0.0".data⟩]).map
          (renderPackage "vendor".data))
    ∧ outputLines "vendor".data
        [⟨"github.com/b/a".data, "b".data, "a".data, "v1.0.0".data⟩,
         ⟨"github.com/a/b".data, "a".data, "b".data, "v1.0.0".data⟩]
        [⟨"example.com/x".data, [], [], "v1.0.0".data⟩] =
        "GH_TUPLE=\t\\".data ::
          (tupleLines "vendor".data
            (sortPackages "vendor".data
              [⟨"github.com/b/a".data, "b".data, "a".data, "v1.0.0".data⟩,
               ⟨"github.com/a/b".data, "a".data, "b".data, "v1.0.0".data⟩]) ++
           [⟨"example.com/x".data, [], [], "v1.0.0".data⟩].map
             (commentLine "vendor".data))
    ∧ ∃ all, parseAll (scanSpecs
          ["# github.com/b/a v1.0.0".data, "# github.com/a/b v1.0.0".data,
           "# example.com/x v1.0.0".data, "junk".data]) = .ok all ∧
        [⟨"github.com/b/a".data, "b".data, "a".data, "v1.0.0".data⟩,
         ⟨"github.com/a/b".data, "a".data, "b".data, "v1.0.0".data⟩]
          = all.filter (fun pk => Parsed pk) ∧
        [⟨"example.com/x".data, [], [], "v1.0.0".data⟩]
          = all.filter (fun pk => !Parsed pk) :=
  c8_output_order "vendor".data
    ["# github.com/b/a v1.0.0".data, "# github.com/a/b v1.0.0".data,
     "# example.com/x v1.0.0".data, "junk".data]
    [⟨"github.com/b/a".data, "b".data, "a".data, "v1.0.0".data⟩,
     ⟨"github.com/a/b".data, "a".data, "b".data, "v1.0.0".data⟩]
    [⟨"example.com/x".data, [], [], "v1.0.0".data⟩]
    (by decide)

end Modules2Tuple
